import Mathlib

/-!
Verification of the geofire-js query engine specification against the
repository source `src/src/GeoFire.ts`.

The only source file present is `GeoFire.ts`; the leaf helpers it imports
(`validateKey`, `validateLocation`, `encodeGeohash`, `encodeGeoFireObject`,
`decodeGeoFireObject`, `distance`) and the `GeoQuery` engine are absent from
the repository snapshot, so those parts are modelled from the specification
(`spec.md`), each such definition carrying a doc comment that starts with
`Modelled from the spec:`.

Locations use exact rational coordinates; JavaScript objects are modelled as
association lists built with last-assignment-wins semantics, matching object
literal evaluation with computed keys and spreads.
-/

namespace GeoFire

/-- Location as an exact (latitude, longitude) pair of rationals. -/
abbrev Loc := ℚ × ℚ

/-- Values a stored JavaScript object field can hold in this development:
numbers, strings, booleans, and two-element numeric arrays (a stored
`[lat, lng]` location). -/
inductive FieldVal where
  | num : ℚ → FieldVal
  | str : String → FieldVal
  | bool : Bool → FieldVal
  | arr2 : ℚ → ℚ → FieldVal
deriving DecidableEq, Repr

/-- A JavaScript object with flat field values, as an association list in
field order. -/
abbrev Obj := List (String × FieldVal)

/-- Field lookup: the first binding of the field name wins, matching lookup
in an association list whose keys are kept unique by `objSet`. -/
def objGet {α : Type} (o : List (String × α)) (f : String) : Option α :=
  match o with
  | [] => none
  | (g, v) :: rest => if g = f then some v else objGet rest f

/-- Assignment `o[f] = v` on an object: an existing binding of `f` is
overwritten in place, otherwise the field is appended, matching JavaScript
property assignment order. Objects keep one binding per field name, so
replacing the first binding is replacing the binding. -/
def objSet {α : Type} : List (String × α) → String → α → List (String × α)
  | [], f, v => [(f, v)]
  | (g, u) :: rest, f, v =>
    if g = f then (f, v) :: rest else (g, u) :: objSet rest f v

/-- Evaluation of an object literal: fields are assigned left to right, so a
later duplicate field name overrides an earlier one, matching JavaScript
object literal and spread semantics. -/
def mkObj {α : Type} (fields : List (String × α)) : List (String × α) :=
  fields.foldl (fun o p => objSet o p.1 p.2) []

/-- Field names of an association list are pairwise distinct, as they are in
any actual JavaScript object. -/
def nodupNames {α : Type} (o : List (String × α)) : Prop :=
  (o.map Prod.fst).Nodup

instance {α : Type} (o : List (String × α)) : Decidable (nodupNames o) := by
  unfold nodupNames; infer_instance

/-- Modelled from the spec: the base-32 geohash alphabet of §6,
`0123456789bcdefghjkmnpqrstuvwxyz`. -/
def base32Chars : List Char := "0123456789bcdefghjkmnpqrstuvwxyz".toList

/-- Bisection bits of one coordinate, with denominators cleared so every
step is exact integer arithmetic. After `i` produced bits the current cell
is `[base + span*lo/2^i, base + span*(lo+1)/2^i)` and its midpoint is
`base + span*(2*lo+1)/2^(i+1)`; the geohash bit is 1 exactly when the
midpoint is at or below the coordinate `x`. Multiplying `mid ≤ x` through
by the positive `x.den * 2^(i+1)` gives the integer test below, with
`A = span * x.den` and `B = (x - base) * x.den = x.num - base * x.den`.
`pw` carries `2^(i+1)`. -/
def coordBitsGo (A B : ℤ) : ℕ → ℤ → ℤ → List Bool
  | 0, _, _ => []
  | n + 1, lo, pw =>
    let b : Bool := decide (A * (2 * lo + 1) ≤ B * pw)
    b :: coordBitsGo A B n (2 * lo + (if b then 1 else 0)) (2 * pw)

/-- Bisection bits of coordinate `x` over the interval
`[base, base + span]`, most significant first. -/
def coordBits (base span : ℤ) (x : ℚ) (n : ℕ) : List Bool :=
  coordBitsGo (span * x.den) (x.num - base * x.den) n 0 2

/-- Interleave two bit streams, first stream first. -/
def interleave : List Bool → List Bool → List Bool
  | [], ys => ys
  | x :: xs, [] => x :: xs
  | x :: xs, y :: ys => x :: y :: interleave xs ys

/-- Numeric value of a big-endian bit string. -/
def bitsVal : List Bool → ℕ
  | [] => 0
  | b :: bs => (if b then 1 else 0) * 2 ^ bs.length + bitsVal bs

/-- Split a bit string into consecutive groups of five, one per base-32
character; a trailing incomplete group is dropped. -/
def chunk5 : List Bool → List (List Bool)
  | b1 :: b2 :: b3 :: b4 :: b5 :: rest => [b1, b2, b3, b4, b5] :: chunk5 rest
  | _ => []

/-- Map grouped bits to base-32 characters. -/
def geohashFromBits (bits : List Bool) : String :=
  String.mk ((chunk5 bits).map (fun c => base32Chars.getD (bitsVal c) '0'))

/-- Modelled from the spec: `encode(location, precision) -> geohash` of §4.1
and §6 — deterministic base-32 encoding that interleaves longitude and
latitude bisection bits most-significant-bit-first, starting with a
longitude bit, over the latitude range [-90, 90] and longitude range
[-180, 180]. `precision` is the number of output characters; the source's
call site uses the library default of 10 characters. -/
def encodeGeohash (loc : Loc) (precision : ℕ) : String :=
  let nbits := 5 * precision
  geohashFromBits
    (interleave (coordBits (-180) 360 loc.2 ((nbits + 1) / 2))
      (coordBits (-90) 180 loc.1 (nbits / 2)))

/-- Modelled from the spec: the Location invariant of §3 — latitude in
[-90, 90] and longitude in [-180, 180]; `validateLocation` in the source's
missing `utils` module rejects anything else. -/
def validLocation (l : Loc) : Bool :=
  decide (-90 ≤ l.1 ∧ l.1 ≤ 90 ∧ -180 ≤ l.2 ∧ l.2 ≤ 180)

/-- Modelled from the spec: a GeoRecord key is a non-empty string (§3);
`validateKey` in the source's missing `utils` module rejects the rest. -/
def validKey (k : String) : Bool :=
  decide (k ≠ "")

/-- Errors raised at the validation boundary (§7) plus the malformed-record
failure `decodeGeoFireObject` raises on a value without a stored location. -/
inductive GeoErr where
  | invalidKey
  | invalidLocation
  | invalidRadius
  | malformedRecord
deriving DecidableEq, Repr

/-- Modelled from the spec: the stored form of a GeoRecord (§3) — the cached
geohash under field `g` and the location under field `l`; the cached field
must always equal `encode(location)`. -/
def encodeGeoFireObject (s : Loc) (hash : String) : Obj :=
  [("g", FieldVal.str hash), ("l", FieldVal.arr2 s.1 s.2)]

/-- A value inside a per-element update document: either an encoded GeoFire
record or an opaque extra field carried over from the input element. -/
inductive DocVal where
  | record : Obj → DocVal
  | extra : FieldVal → DocVal
deriving DecidableEq, Repr

/-- The per-element update document produced by `set`'s `toDocument`. -/
abbrev EltDoc := List (String × DocVal)

/-- An input element of `GeoFire.set`: a key, a location, and arbitrary
extra fields (the `[x: string]: any` index signature of the source's
`element` type). Field names of `rest` are distinct in any actual
JavaScript object. -/
structure Element where
  key : String
  location : Loc
  rest : List (String × FieldVal)
deriving DecidableEq, Repr

/-- Embeds `toDocument` inside `GeoFire.set` (GeoFire.ts lines 102-113):
destructure the element, validate key then location, encode the record, and
build the object literal `{[key]: encoded, ...rest}`. -/
def toDocument (e : Element) : Except GeoErr EltDoc :=
  if validKey e.key = false then .error .invalidKey
  else if validLocation e.location = false then .error .invalidLocation
  else
    .ok (mkObj ((e.key,
        DocVal.record (encodeGeoFireObject e.location (encodeGeohash e.location 10))) ::
      e.rest.map (fun p => (p.1, DocVal.extra p.2))))

/-- Eager left-to-right mapping of `toDocument` over the input array
(`Rmap(toDocument, data)` in GeoFire.ts line 114): the first validation
failure aborts the whole call before any write is issued. -/
def mapDocs : List Element → Except GeoErr (List EltDoc)
  | [] => .ok []
  | e :: rest =>
    match toDocument e with
    | .error err => .error err
    | .ok d =>
      match mapDocs rest with
      | .error err => .error err
      | .ok ds => .ok (d :: ds)

/-- Embeds `GeoFire.set` (GeoFire.ts lines 100-115): the update payload
passed to `_firebaseRef.update` is the array of per-element documents, or
the call fails with the first validation error and nothing is written. -/
def set (data : List Element) : Except GeoErr (List EltDoc) :=
  mapDocs data

/-- The store rooted at the GeoFire Firebase reference: top-level keys and
their stored record objects. -/
abbrev Store := List (String × Obj)

/-- Modelled from the spec: `decodeGeoFireObject` extracts the decoded
location of a stored record — the two-element array under field `l` of a
GeoRecord (§3) — and fails on a value without one. -/
def decodeGeoFireObject (o : Obj) : Option FieldVal :=
  match objGet o "l" with
  | some (FieldVal.arr2 a b) => some (FieldVal.arr2 a b)
  | _ => none

/-- Embeds `GeoFire.get` (GeoFire.ts lines 50-66): validate the key, read
the snapshot at `child(key)`, resolve with `null` when absent, otherwise
resolve with the object literal `{location: decodeGeoFireObject(v), ...v}`.
The promise rejects when the stored value has no decodable location. -/
def get (store : Store) (k : String) : Except GeoErr (Option Obj) :=
  if validKey k = false then .error .invalidKey
  else
    match objGet store k with
    | none => .ok none
    | some v =>
      match decodeGeoFireObject v with
      | none => .error .malformedRecord
      | some d => .ok (some (mkObj (("location", d) :: v)))

/-- Embeds `GeoFire.remove` (GeoFire.ts lines 85-87): the method body is
`return this._firebaseRef.remove();` — it calls `remove()` on the root
reference itself, never on `child(key)`, so the entire store under the
GeoFire reference is deleted and the `key` argument is ignored. -/
def remove (key : String) (store : Store) : Store :=
  []

/-- Modelled from the spec: `QueryCriteria` (§3) — a center location and a
radius in kilometers. -/
structure Criteria where
  center : Loc
  radius : ℚ
deriving DecidableEq, Repr

/-- Modelled from the spec: a `RawChange { key, location|null }` event from
a Range Watcher (§4.4); `location = none` signals removal. -/
structure RawChange where
  key : String
  location : Option Loc
deriving DecidableEq, Repr

/-- Modelled from the spec: the events the Result Set Manager emits (§4.5),
each carrying the key, the location and (for entered/moved) the distance
from the center. -/
inductive Event where
  | entered : String → Loc → ℚ → Event
  | moved : String → Loc → ℚ → Event
  | exited : String → Loc → Event
deriving DecidableEq, Repr

/-- The key an event is about. -/
def eventKey : Event → String
  | .entered k _ _ => k
  | .moved k _ _ => k
  | .exited k _ => k

/-- Modelled from the spec: the Result Set Manager's state for one query
instance (§4.5) — the last known location of every key observed through the
active range watchers (keys inside a watched geohash range but outside the
true circle are tracked too, which is what lets a later criteria change emit
`key_entered` for them without a new store notification), together with the
current criteria. Membership in the result set is the derived
`inResultSet`. -/
structure ManagerState where
  entries : List (String × Loc)
  criteria : Criteria
deriving DecidableEq, Repr

/-- A location lies within the query circle: its distance from the center is
at most the radius. The distance function is a parameter of the whole
manager model, so every theorem below holds for any distance function, the
spec's haversine included. -/
abbrev inCircle (dist : Loc → Loc → ℚ) (c : Criteria) (l : Loc) : Prop :=
  dist l c.center ≤ c.radius

/-- Remove every binding of a key. -/
def entryRemove {α : Type} (o : List (String × α)) (k : String) :
    List (String × α) :=
  o.filter (fun p => p.1 ≠ k)

/-- A key is in the manager's result set: it is tracked and its last known
location lies within the circle. -/
def inResultSet (dist : Loc → Loc → ℚ) (s : ManagerState) (k : String) :
    Prop :=
  ∃ l, objGet s.entries k = some l ∧ inCircle dist s.criteria l

/-- Modelled from the spec: the Result Set Manager's reaction to one
`RawChange` (§4.5). Removal or an out-of-circle location drops the key from
the result set, emitting `key_exited` with the last known location when the
key was in it; an in-circle location creates the entry (`key_entered`),
updates it (`key_moved`), or is an idempotent no-op when the location is
unchanged. The tracked location is always brought up to date. -/
def processRawChange (dist : Loc → Loc → ℚ) (s : ManagerState)
    (c : RawChange) : ManagerState × List Event :=
  match c.location with
  | none =>
    match objGet s.entries c.key with
    | none => (s, [])
    | some l =>
      ({ s with entries := entryRemove s.entries c.key },
        if inCircle dist s.criteria l then [Event.exited c.key l] else [])
  | some loc =>
    let s' : ManagerState := { s with entries := objSet s.entries c.key loc }
    if inCircle dist s.criteria loc then
      match objGet s.entries c.key with
      | none => (s', [Event.entered c.key loc (dist loc s.criteria.center)])
      | some l =>
        if inCircle dist s.criteria l then
          if l = loc then (s', [])
          else (s', [Event.moved c.key loc (dist loc s.criteria.center)])
        else (s', [Event.entered c.key loc (dist loc s.criteria.center)])
    else
      match objGet s.entries c.key with
      | none => (s', [])
      | some l =>
        if inCircle dist s.criteria l then (s', [Event.exited c.key l])
        else (s', [])

/-- Re-evaluation of every tracked entry against new criteria (§4.5):
entries that leave the circle emit `key_exited`, entries that enter it emit
`key_entered`, entries on the same side of the boundary emit nothing. -/
def reEvalEvents (dist : Loc → Loc → ℚ) (oldCrit newCrit : Criteria) :
    List (String × Loc) → List Event
  | [] => []
  | (k, l) :: rest =>
    (if inCircle dist oldCrit l then
      if inCircle dist newCrit l then [] else [Event.exited k l]
    else
      if inCircle dist newCrit l then
        [Event.entered k l (dist l newCrit.center)]
      else []) ++ reEvalEvents dist oldCrit newCrit rest

/-- Modelled from the spec: the Result Set Manager's reaction to a
`QueryCriteria` change (§4.5) — every currently-held entry is re-evaluated
against the new criteria and exit/entered events are emitted as needed,
without any new store notification. -/
def managerUpdateCriteria (dist : Loc → Loc → ℚ) (s : ManagerState)
    (c : Criteria) : ManagerState × List Event :=
  ({ entries := s.entries, criteria := c },
    reEvalEvents dist s.criteria c s.entries)

/-- Modelled from the spec: validation of query criteria at the boundary
(§7) — an out-of-range center is an `InvalidLocation` error, a negative
radius an `InvalidRadius` error, neither ever clamped. -/
def validateCriteria (c : Criteria) : Except GeoErr Unit :=
  if validLocation c.center = false then .error .invalidLocation
  else if c.radius < 0 then .error .invalidRadius
  else .ok ()

/-- Modelled from the spec: `createQuery(criteria)` (§6) — criteria are
validated before any query state exists; on success the query starts with
an empty entry table. -/
def createQuery (c : Criteria) : Except GeoErr ManagerState :=
  match validateCriteria c with
  | .error e => .error e
  | .ok _ => .ok { entries := [], criteria := c }

/-- Modelled from the spec: `updateCriteria(handle, newCriteria)` (§6) —
the new criteria are validated first; on failure the query state is left
untouched and no event is emitted, on success the manager re-evaluates its
entries per §4.5. -/
def queryUpdateCriteria (dist : Loc → Loc → ℚ) (s : ManagerState)
    (c : Criteria) : Except GeoErr (ManagerState × List Event) :=
  match validateCriteria c with
  | .error e => .error e
  | .ok _ => .ok (managerUpdateCriteria dist s c)

/-- Modelled from the spec: the serialized inbound event stream of one query
instance (§5, §9) — store data changes, criteria updates and cancellation
are all events on the same ordered queue. -/
inductive InEvent where
  | dataChange : RawChange → InEvent
  | criteriaUpdate : Criteria → InEvent
  | cancelQuery : InEvent
deriving DecidableEq, Repr

/-- Modelled from the spec: the Query Controller's state (§4.6) — whether
the terminal `Cancelled` state has been entered, plus the Result Set
Manager it owns. The `Initializing` buffering of §4.6 is not modelled; no
claim under verification depends on the readiness protocol. -/
structure ControllerState where
  cancelled : Bool
  manager : ManagerState
deriving DecidableEq, Repr

/-- Modelled from the spec: one step of the Query Controller (§4.6, §5). A
cancelled instance discards every further event — queued or in-flight store
notifications included — and emits nothing. `cancel` enters the terminal
state, clearing all entries without emitting exit events (teardown is
silent) and is idempotent. -/
def controllerStep (dist : Loc → Loc → ℚ) (s : ControllerState)
    (e : InEvent) : ControllerState × List Event :=
  if s.cancelled then (s, [])
  else
    match e with
    | .cancelQuery =>
      ({ cancelled := true,
         manager := { entries := [], criteria := s.manager.criteria } }, [])
    | .dataChange c =>
      let r := processRawChange dist s.manager c
      ({ cancelled := false, manager := r.1 }, r.2)
    | .criteriaUpdate c =>
      let r := managerUpdateCriteria dist s.manager c
      ({ cancelled := false, manager := r.1 }, r.2)

/-- Run the controller over a whole inbound event stream, concatenating the
subscriber events it emits. -/
def runController (dist : Loc → Loc → ℚ) (s : ControllerState) :
    List InEvent → ControllerState × List Event
  | [] => (s, [])
  | e :: rest =>
    let r := controllerStep dist s e
    let r2 := runController dist r.1 rest
    (r2.1, r.2 ++ r2.2)

/-- A table-based distance function used by concrete witnesses: distance 4
from the new center for the point that leaves the circle, 5 from the old
center for the point that enters it, and 1 everywhere else. Witnesses use
it because, unlike haversine, it evaluates by kernel reduction. -/
def distW (l c : Loc) : ℚ :=
  if l = (-1, 0) ∧ c = (3, 0) then 4
  else if l = (5, 0) ∧ c = (0, 0) then 5
  else 1

theorem objGet_mem {α : Type} {o : List (String × α)} {f : String} {v : α}
    (h : objGet o f = some v) : (f, v) ∈ o := by
  induction o with
  | nil => simp [objGet] at h
  | cons p rest ih =>
    obtain ⟨g, u⟩ := p
    by_cases hg : g = f
    · subst hg
      simp [objGet] at h
      simp [h]
    · simp [objGet, hg] at h
      exact List.mem_cons_of_mem _ (ih h)

theorem objGet_objSet_self {α : Type} (o : List (String × α)) (f : String)
    (v : α) : objGet (objSet o f v) f = some v := by
  induction o with
  | nil => simp [objSet, objGet]
  | cons p rest ih =>
    obtain ⟨g, u⟩ := p
    by_cases hg : g = f
    · simp [objSet, objGet, hg]
    · simpa [objSet, objGet, hg] using ih

theorem objGet_objSet_ne {α : Type} (o : List (String × α)) (f g : String)
    (v : α) (hg : g ≠ f) : objGet (objSet o f v) g = objGet o g := by
  induction o with
  | nil => simp [objSet, objGet, Ne.symm hg]
  | cons p rest ih =>
    obtain ⟨p1, p2⟩ := p
    by_cases hp : p1 = f
    · subst hp
      simp [objSet, objGet, Ne.symm hg]
    · by_cases hpg : p1 = g
      · subst hpg
        simp [objSet, objGet, hp]
      · simpa [objSet, objGet, hp, hpg] using ih

theorem objSet_objSet_self {α : Type} (o : List (String × α)) (f : String)
    (v : α) : objSet (objSet o f v) f v = objSet o f v := by
  induction o with
  | nil => simp [objSet]
  | cons p rest ih =>
    obtain ⟨g, u⟩ := p
    by_cases hg : g = f
    · simp [objSet, hg]
    · simpa [objSet, hg] using ih

theorem objGet_entryRemove_self {α : Type} (o : List (String × α))
    (k : String) : objGet (entryRemove o k) k = none := by
  induction o with
  | nil => rfl
  | cons p rest ih =>
    obtain ⟨g, u⟩ := p
    by_cases hg : g = k
    · simpa [entryRemove, hg] using ih
    · simpa [entryRemove, objGet, hg] using ih

theorem objGet_foldl_notMem {α : Type} (fields : List (String × α))
    (acc : List (String × α)) (f : String)
    (h : ∀ p ∈ fields, p.1 ≠ f) :
    objGet (fields.foldl (fun o p => objSet o p.1 p.2) acc) f =
      objGet acc f := by
  induction fields generalizing acc with
  | nil => rfl
  | cons p rest ih =>
    obtain ⟨g, u⟩ := p
    have hg : g ≠ f := h (g, u) (List.mem_cons_self _ _)
    have hrest : ∀ p ∈ rest, p.1 ≠ f :=
      fun q hq => h q (List.mem_cons_of_mem _ hq)
    rw [List.foldl_cons, ih (objSet acc g u) hrest]
    exact objGet_objSet_ne acc g f u (Ne.symm hg)

theorem objGet_foldl_mem {α : Type} (fields : List (String × α))
    (acc : List (String × α)) (f : String) (w : α)
    (hnodup : nodupNames fields) (hmem : (f, w) ∈ fields) :
    objGet (fields.foldl (fun o p => objSet o p.1 p.2) acc) f = some w := by
  induction fields generalizing acc with
  | nil => simp at hmem
  | cons p rest ih =>
    obtain ⟨g, u⟩ := p
    unfold nodupNames at hnodup
    simp only [List.map_cons, List.nodup_cons, List.mem_map] at hnodup
    rcases List.mem_cons.mp hmem with heq | hrest
    · obtain ⟨hf, hw⟩ := Prod.mk.injEq .. ▸ (by exact heq : (f, w) = (g, u))
      subst hf; subst hw
      have hnot : ∀ q ∈ rest, q.1 ≠ f :=
        fun q hq hqf => hnodup.1 ⟨q, hq, hqf⟩
      rw [List.foldl_cons,
        objGet_foldl_notMem rest (objSet acc f w) f hnot]
      exact objGet_objSet_self acc f w
    · rw [List.foldl_cons]
      exact ih (objSet acc g u) hnodup.2 hrest

theorem mem_objSet {α : Type} {o : List (String × α)} {f : String} {v : α}
    {p : String × α} (h : p ∈ objSet o f v) : p ∈ o ∨ p = (f, v) := by
  induction o with
  | nil => simpa [objSet] using h
  | cons q rest ih =>
    obtain ⟨g, u⟩ := q
    by_cases hg : g = f
    · simp only [objSet, hg, if_true, List.mem_cons] at h
      rcases h with heq | hmem
      · exact Or.inr heq
      · exact Or.inl (List.mem_cons_of_mem _ hmem)
    · simp only [objSet, hg, if_false, List.mem_cons] at h
      rcases h with heq | hmem
      · exact Or.inl (by simp [heq])
      · rcases ih hmem with hin | heq
        · exact Or.inl (List.mem_cons_of_mem _ hin)
        · exact Or.inr heq

theorem mem_foldl_objSet {α : Type} {fields acc : List (String × α)}
    {p : String × α}
    (h : p ∈ fields.foldl (fun o q => objSet o q.1 q.2) acc) :
    p ∈ acc ∨ p ∈ fields := by
  induction fields generalizing acc with
  | nil => exact Or.inl h
  | cons q rest ih =>
    rw [List.foldl_cons] at h
    rcases ih h with hacc | hrest
    · rcases mem_objSet hacc with hin | heq
      · exact Or.inl hin
      · exact Or.inr (by simp [heq])
    · exact Or.inr (List.mem_cons_of_mem _ hrest)

theorem mapDocs_ok_mem {data : List Element} {docs : List EltDoc}
    {e : Element} (h : mapDocs data = .ok docs) (he : e ∈ data) :
    ∃ d, toDocument e = .ok d ∧ d ∈ docs := by
  induction data generalizing docs with
  | nil => simp at he
  | cons a rest ih =>
    unfold mapDocs at h
    rcases ha : toDocument a with err | d
    · rw [ha] at h; exact absurd h (by simp)
    · rw [ha] at h
      rcases hrest : mapDocs rest with err | ds
      · rw [hrest] at h; exact absurd h (by simp)
      · rw [hrest] at h
        simp only [Except.ok.injEq] at h
        subst h
        rcases List.mem_cons.mp he with heq | hmem
        · exact ⟨d, heq ▸ ha, List.mem_cons_self _ _⟩
        · obtain ⟨d', hd', hmem'⟩ := ih hrest hmem
          exact ⟨d', hd', List.mem_cons_of_mem _ hmem'⟩

theorem mapDocs_ok_mem_rev {data : List Element} {docs : List EltDoc}
    {d : EltDoc} (h : mapDocs data = .ok docs) (hd : d ∈ docs) :
    ∃ e ∈ data, toDocument e = .ok d := by
  induction data generalizing docs with
  | nil =>
    unfold mapDocs at h
    simp only [Except.ok.injEq] at h
    subst h
    simp at hd
  | cons a rest ih =>
    unfold mapDocs at h
    rcases ha : toDocument a with err | d' <;> rw [ha] at h
    · exact absurd h (by simp)
    · rcases hrest : mapDocs rest with err | ds <;> rw [hrest] at h
      · exact absurd h (by simp)
      · simp only [Except.ok.injEq] at h
        subst h
        rcases List.mem_cons.mp hd with heq | hmem
        · exact ⟨a, List.mem_cons_self _ _, heq ▸ ha⟩
        · obtain ⟨e, he, hde⟩ := ih hrest hmem
          exact ⟨e, List.mem_cons_of_mem _ he, hde⟩

/-- C1: the claim states that `remove(k)` deletes only the record stored
under `k`, leaving every other key's record unchanged. The source's method
body is `return this._firebaseRef.remove();` — it ignores `k` and removes
the root reference, deleting every record. This theorem evaluates the
embedded code at the failing input: a store holding records under `"a"` and
`"b"`, where `remove "a"` erases the record of `"b"` as well, while the
claim (and the method's own doc comment) require it to survive. -/
theorem C1_remove_wipes_other_keys :
    objGet (remove "a"
      [("a", [("g", FieldVal.str "ha"), ("l", FieldVal.arr2 1 1)]),
       ("b", [("g", FieldVal.str "hb"), ("l", FieldVal.arr2 2 2)])]) "b" =
      none ∧
    objGet
      [("a", [("g", FieldVal.str "ha"), ("l", FieldVal.arr2 1 1)]),
       ("b", [("g", FieldVal.str "hb"), ("l", FieldVal.arr2 2 2)])] "b" =
      some [("g", FieldVal.str "hb"), ("l", FieldVal.arr2 2 2)] :=
  ⟨rfl, rfl⟩

/-- C2: in every update payload produced by a successful `set`, every
encoded record stored in a per-element document is exactly the encoding of
its element's location, so its cached geohash field `g` equals
`encodeGeohash` of that location. -/
theorem C2_set_caches_geohash (data : List Element) (docs : List EltDoc)
    (d : EltDoc) (f : String) (r : Obj)
    (h : set data = .ok docs) (hd : d ∈ docs)
    (hf : objGet d f = some (DocVal.record r)) :
    ∃ e ∈ data, e.key = f ∧
      r = encodeGeoFireObject e.location (encodeGeohash e.location 10) ∧
      objGet r "g" = some (FieldVal.str (encodeGeohash e.location 10)) := by
  obtain ⟨e, he, htd⟩ := mapDocs_ok_mem_rev h hd
  unfold toDocument at htd
  by_cases hk : validKey e.key = false
  · rw [if_pos hk] at htd
    exact absurd htd (by simp)
  rw [if_neg hk] at htd
  by_cases hl : validLocation e.location = false
  · rw [if_pos hl] at htd
    exact absurd htd (by simp)
  rw [if_neg hl] at htd
  simp only [Except.ok.injEq] at htd
  have hmem := objGet_mem hf
  rw [← htd] at hmem
  rcases mem_foldl_objSet hmem with hacc | hfield
  · simp at hacc
  rcases List.mem_cons.mp hfield with heq | hrest
  · have hkey : e.key = f := congrArg Prod.fst heq.symm
    have hrec : DocVal.record r =
        DocVal.record
          (encodeGeoFireObject e.location (encodeGeohash e.location 10)) :=
      congrArg Prod.snd heq
    have hr : r =
        encodeGeoFireObject e.location (encodeGeohash e.location 10) := by
      injection hrec
    exact ⟨e, he, hkey, hr, by rw [hr]; rfl⟩
  · simp only [List.mem_map] at hrest
    obtain ⟨p, _, hp⟩ := hrest
    have : DocVal.extra p.2 = DocVal.record r := congrArg Prod.snd hp
    exact absurd this (by simp)

/-- C2 witness: a concrete single-element `set` whose payload record for
key `"k"` carries the cached geohash of `(0, 0)`. -/
theorem C2_set_caches_geohash_witness :
    ∃ e ∈ [(⟨"k", (0, 0), [("tag", FieldVal.str "x")]⟩ : Element)],
      e.key = "k" ∧
      [("g", FieldVal.str "s000000000"), ("l", FieldVal.arr2 0 0)] =
        encodeGeoFireObject e.location (encodeGeohash e.location 10) ∧
      objGet [("g", FieldVal.str "s000000000"), ("l", FieldVal.arr2 0 0)]
          "g" =
        some (FieldVal.str (encodeGeohash e.location 10)) :=
  C2_set_caches_geohash
    [⟨"k", (0, 0), [("tag", FieldVal.str "x")]⟩]
    [[("k", DocVal.record
        [("g", FieldVal.str "s000000000"), ("l", FieldVal.arr2 0 0)]),
      ("tag", DocVal.extra (FieldVal.str "x"))]]
    [("k", DocVal.record
        [("g", FieldVal.str "s000000000"), ("l", FieldVal.arr2 0 0)]),
      ("tag", DocVal.extra (FieldVal.str "x"))]
    "k" [("g", FieldVal.str "s000000000"), ("l", FieldVal.arr2 0 0)]
    rfl (List.mem_singleton.mpr rfl) rfl

/-- C9: for a valid key, `get` resolves with `null` when the store holds
nothing under the key; when it holds a record `v` with a decodable
location, `get` resolves with `{location: decode(v), ...v}` — every field
of `v` is present with its stored value, the `location` field equals the
decoded location when `v` has no field of that name, and a stored field
literally named `location` overrides the decoded one because `v` is spread
after it. -/
theorem C9_get_contract (store : Store) (k : String)
    (hk : validKey k = true) :
    (objGet store k = none → get store k = .ok none) ∧
    (∀ v d, objGet store k = some v → decodeGeoFireObject v = some d →
      nodupNames v →
      get store k = .ok (some (mkObj (("location", d) :: v))) ∧
      (∀ f w, (f, w) ∈ v →
        objGet (mkObj (("location", d) :: v)) f = some w) ∧
      ((∀ p ∈ v, p.1 ≠ "location") →
        objGet (mkObj (("location", d) :: v)) "location" = some d)) := by
  constructor
  · intro h
    simp [get, hk, h]
  · intro v d hv hd hnodup
    have hmk : mkObj (("location", d) :: v) =
        v.foldl (fun o p => objSet o p.1 p.2) [("location", d)] := rfl
    refine ⟨by simp [get, hk, hv, hd], ?_, ?_⟩
    · intro f w hw
      rw [hmk]
      exact objGet_foldl_mem v [("location", d)] f w hnodup hw
    · intro hnol
      rw [hmk, objGet_foldl_notMem v [("location", d)] "location" hnol]
      simp [objGet]

/-- C9 witness: a store whose record under `"k"` carries both a stored
location `l = [1, 2]` and a field literally named `location`; `get`
resolves with the spread object in which the stored `location` field has
overridden the decoded one. -/
theorem C9_get_contract_witness :
    get [("k", [("l", FieldVal.arr2 1 2),
      ("location", FieldVal.str "shadow")])] "k" =
      .ok (some [("location", FieldVal.str "shadow"),
        ("l", FieldVal.arr2 1 2)]) ∧
    objGet [("location", FieldVal.str "shadow"), ("l", FieldVal.arr2 1 2)]
        "location" = some (FieldVal.str "shadow") := by
  have h := (C9_get_contract
    [("k", [("l", FieldVal.arr2 1 2), ("location", FieldVal.str "shadow")])]
    "k" rfl).2
    [("l", FieldVal.arr2 1 2), ("location", FieldVal.str "shadow")]
    (FieldVal.arr2 1 2) rfl rfl (by decide)
  exact ⟨h.1, h.2.1 "location" (FieldVal.str "shadow") (by decide)⟩

/-- C10 counterexample: the claim says every extra field of an element is
placed as a top-level sibling of the element's key and is never written as
part of the key's record. For the element with key `"a"` and an extra field
also named `"a"`, the object literal `{[key]: encoded, ...rest}` lets the
spread override the computed key, so the payload stores the extra value 5
directly under `"a"` and the encoded record is gone — the extra payload
ends up exactly where the key's record was supposed to be. -/
theorem C10_extra_field_named_key_replaces_record :
    toDocument ⟨"a", (0, 0), [("a", FieldVal.num 5)]⟩ =
      .ok [("a", DocVal.extra (FieldVal.num 5))] ∧
    objGet [("a", DocVal.extra (FieldVal.num 5))] "a" ≠
      some (DocVal.record
        (encodeGeoFireObject (0, 0) (encodeGeohash (0, 0) 10))) := by
  exact ⟨rfl, by decide⟩

/-- C10 (amended): for every element whose extra field names are distinct
and none of which equals the element's key, the extra fields are placed in
the per-element update payload as top-level siblings of the element's key,
the value under the key is exactly the encoded record — a function of the
location alone, containing only the cached geohash and the location, never
the extra payload. An extra field named exactly like the key instead
replaces the encoded record (see the counterexample). -/
theorem C10_extra_fields_are_siblings (e : Element) (d : EltDoc)
    (h : toDocument e = .ok d)
    (hnc : ∀ p ∈ e.rest, p.1 ≠ e.key)
    (hnodup : nodupNames e.rest) :
    objGet d e.key = some (DocVal.record
      (encodeGeoFireObject e.location (encodeGeohash e.location 10))) ∧
    (∀ f w, (f, w) ∈ e.rest → objGet d f = some (DocVal.extra w)) := by
  unfold toDocument at h
  by_cases hk : validKey e.key = false
  · rw [if_pos hk] at h
    exact absurd h (by simp)
  rw [if_neg hk] at h
  by_cases hl : validLocation e.location = false
  · rw [if_pos hl] at h
    exact absurd h (by simp)
  rw [if_neg hl] at h
  simp only [Except.ok.injEq] at h
  subst h
  have hmk : mkObj ((e.key, DocVal.record
      (encodeGeoFireObject e.location (encodeGeohash e.location 10))) ::
        e.rest.map (fun p => (p.1, DocVal.extra p.2))) =
      (e.rest.map (fun p => (p.1, DocVal.extra p.2))).foldl
        (fun o p => objSet o p.1 p.2)
        [(e.key, DocVal.record
          (encodeGeoFireObject e.location (encodeGeohash e.location 10)))] :=
    rfl
  constructor
  · rw [hmk, objGet_foldl_notMem _ _ _
      (by
        intro p hp
        simp only [List.mem_map] at hp
        obtain ⟨q, hq, hqp⟩ := hp
        rw [← hqp]
        exact hnc q hq)]
    simp [objGet]
  · intro f w hw
    rw [hmk]
    refine objGet_foldl_mem _ _ f (DocVal.extra w) ?_ ?_
    · unfold nodupNames at hnodup ⊢
      simpa [List.map_map, Function.comp] using hnodup
    · exact List.mem_map.mpr ⟨(f, w), hw, rfl⟩

/-- C10 witness: a concrete element with one extra field `"tag"`; the
payload stores the encoded record under `"k"` and the extra field as its
top-level sibling. -/
theorem C10_extra_fields_are_siblings_witness :
    objGet [("k", DocVal.record
        [("g", FieldVal.str "s000000000"), ("l", FieldVal.arr2 0 0)]),
      ("tag", DocVal.extra (FieldVal.num 7))] "k" =
      some (DocVal.record
        (encodeGeoFireObject (0, 0) (encodeGeohash (0, 0) 10))) ∧
    objGet [("k", DocVal.record
        [("g", FieldVal.str "s000000000"), ("l", FieldVal.arr2 0 0)]),
      ("tag", DocVal.extra (FieldVal.num 7))] "tag" =
      some (DocVal.extra (FieldVal.num 7)) := by
  have h := C10_extra_fields_are_siblings
    ⟨"k", (0, 0), [("tag", FieldVal.num 7)]⟩
    [("k", DocVal.record
        [("g", FieldVal.str "s000000000"), ("l", FieldVal.arr2 0 0)]),
      ("tag", DocVal.extra (FieldVal.num 7))]
    rfl (by decide) (by decide)
  exact ⟨h.1, h.2 "tag" (FieldVal.num 7) (by decide)⟩

/-- C7: a location with latitude outside [-90, 90] or longitude outside
[-180, 180] is rejected with an `InvalidLocation` error at every entry
point that accepts a location — `set` (when every key is valid, so the
location check is what fires), query creation, and criteria update. The
rejection returns an error carrying no payload, document or state: nothing
is written and no query state changes, and in particular no clamped value
is ever produced. -/
theorem C7_invalid_location_rejected (loc : Loc)
    (hinv : validLocation loc = false) :
    (∀ data : List Element, (∀ x ∈ data, validKey x.key = true) →
      (∃ e ∈ data, e.location = loc) →
      set data = .error .invalidLocation) ∧
    (∀ r, createQuery ⟨loc, r⟩ = .error .invalidLocation) ∧
    (∀ dist s r,
      queryUpdateCriteria dist s ⟨loc, r⟩ = .error .invalidLocation) := by
  refine ⟨?_, ?_, ?_⟩
  · intro data
    induction data with
    | nil =>
      intro _ hex
      simp at hex
    | cons a rest ih =>
      intro hkeys hex
      have hka : validKey a.key = true := hkeys a (List.mem_cons_self _ _)
      unfold set mapDocs toDocument
      rw [if_neg (by simp [hka])]
      by_cases hla : validLocation a.location = false
      · rw [if_pos hla]
      · rw [if_neg hla]
        obtain ⟨e, he, hel⟩ := hex
        rcases List.mem_cons.mp he with heq | hmem
        · have hal : a.location = loc := heq ▸ hel
          rw [hal, hinv] at hla
          exact absurd rfl hla
        · have hres := ih (fun x hx => hkeys x (List.mem_cons_of_mem _ hx))
            ⟨e, hmem, hel⟩
          unfold set at hres
          rw [hres]
  · intro r
    simp [createQuery, validateCriteria, hinv]
  · intro dist s r
    simp [queryUpdateCriteria, validateCriteria, hinv]

/-- C7 witness: the out-of-range location `(100, 0)` is rejected by `set`,
by query creation and by criteria update. -/
theorem C7_invalid_location_rejected_witness :
    set [⟨"k", (100, 0), []⟩] = .error .invalidLocation ∧
    createQuery ⟨(100, 0), 1⟩ = .error .invalidLocation ∧
    queryUpdateCriteria distW ⟨[], ⟨(0, 0), 1⟩⟩ ⟨(100, 0), 1⟩ =
      .error .invalidLocation := by
  have h := C7_invalid_location_rejected (100, 0) (by decide)
  exact ⟨h.1 [⟨"k", (100, 0), []⟩] (by decide)
      ⟨⟨"k", (100, 0), []⟩, List.mem_singleton.mpr rfl, rfl⟩,
    h.2.1 1, h.2.2 distW ⟨[], ⟨(0, 0), 1⟩⟩ 1⟩

theorem processRawChange_some_fst (dist : Loc → Loc → ℚ) (s : ManagerState)
    (k : String) (loc : Loc) :
    (processRawChange dist s ⟨k, some loc⟩).1 =
      { s with entries := objSet s.entries k loc } := by
  rcases hg : objGet s.entries k with _ | l
  · by_cases h : inCircle dist s.criteria loc <;>
      simp [processRawChange, hg, h]
  · by_cases h : inCircle dist s.criteria loc <;>
      by_cases h2 : inCircle dist s.criteria l <;>
      by_cases h3 : l = loc <;>
      simp [processRawChange, hg, h, h2, h3]

/-- C4: after the Result Set Manager processes a change event that carries
a location, the key is present in the result set exactly when the
location's distance from the center is at most the radius — for any
distance function, the spec's haversine included. -/
theorem C4_membership_iff_within_radius (dist : Loc → Loc → ℚ)
    (s : ManagerState) (k : String) (loc : Loc) :
    inResultSet dist (processRawChange dist s ⟨k, some loc⟩).1 k ↔
      inCircle dist s.criteria loc := by
  rw [processRawChange_some_fst]
  unfold inResultSet
  constructor
  · rintro ⟨l, hl, hin⟩
    rw [objGet_objSet_self] at hl
    have hll : loc = l := by injection hl
    exact hll ▸ hin
  · intro h
    exact ⟨loc, objGet_objSet_self s.entries k loc, h⟩

/-- C5 counterexample: the claim says every pair of identical deliveries
emits exactly one event in total. Delivering the removal of an untracked
key twice to a fresh manager emits zero events in total. -/
theorem C5_duplicate_delivery_can_emit_zero_events :
    (processRawChange distW ⟨[], ⟨(0, 0), 1⟩⟩ ⟨"k", none⟩).2.length +
      (processRawChange distW
        (processRawChange distW ⟨[], ⟨(0, 0), 1⟩⟩ ⟨"k", none⟩).1
        ⟨"k", none⟩).2.length ≠ 1 := by
  decide

/-- C5 (amended): delivering the same `RawChange` a second time immediately
after the first produces no additional event — the second delivery emits
nothing and leaves the manager's state (hence the result set) unchanged, so
the pair emits exactly as many events as the first delivery alone, which is
at most one. -/
theorem C5_second_delivery_is_noop (dist : Loc → Loc → ℚ)
    (s : ManagerState) (c : RawChange) :
    processRawChange dist (processRawChange dist s c).1 c =
      ((processRawChange dist s c).1, []) ∧
    (processRawChange dist s c).2.length ≤ 1 := by
  obtain ⟨k, lopt⟩ := c
  rcases lopt with _ | loc
  · rcases hg : objGet s.entries k with _ | l
    · simp [processRawChange, hg]
    · constructor
      · simp [processRawChange, hg, objGet_entryRemove_self]
      · by_cases h : inCircle dist s.criteria l <;>
          simp [processRawChange, hg, h]
  · constructor
    · rw [processRawChange_some_fst]
      by_cases hin : inCircle dist s.criteria loc <;>
        simp [processRawChange, objGet_objSet_self, objSet_objSet_self, hin]
    · rcases hg : objGet s.entries k with _ | l
      · by_cases hin : inCircle dist s.criteria loc <;>
          simp [processRawChange, hg, hin]
      · by_cases hin : inCircle dist s.criteria loc <;>
          by_cases h2 : inCircle dist s.criteria l <;>
          by_cases h3 : l = loc <;>
          simp [processRawChange, hg, hin, h2, h3]

/-- C6: for an active query holding entries A (inside the old and the new
circle), B (inside the old, outside the new) and C (outside the old, inside
the new), updating the criteria emits exactly one `key_exited` for B and
exactly one `key_entered` for C and no event for A — the emitted event list
is precisely those two events. `managerUpdateCriteria` consumes only the
manager's own state, so no new store notification is involved. The theorem
holds for any distance function. -/
theorem C6_update_criteria_diff_events (dist : Loc → Loc → ℚ)
    (la lb lc : Loc) (oldc newc : Criteria)
    (ha1 : inCircle dist oldc la) (ha2 : inCircle dist newc la)
    (hb1 : inCircle dist oldc lb) (hb2 : ¬ inCircle dist newc lb)
    (hc1 : ¬ inCircle dist oldc lc) (hc2 : inCircle dist newc lc) :
    managerUpdateCriteria dist
        ⟨[("A", la), ("B", lb), ("C", lc)], oldc⟩ newc =
      (⟨[("A", la), ("B", lb), ("C", lc)], newc⟩,
        [Event.exited "B" lb,
          Event.entered "C" lc (dist lc newc.center)]) := by
  simp [managerUpdateCriteria, reEvalEvents, ha1, ha2, hb1, hb2, hc1, hc2]

/-- C6 witness: a concrete criteria update — center moved from `(0,0)` to
`(3,0)` at radius 2 under the table distance `distW` — emits exactly the
exit of B and the entry of C. -/
theorem C6_update_criteria_diff_events_witness :
    managerUpdateCriteria distW
        ⟨[("A", (1, 0)), ("B", (-1, 0)), ("C", (5, 0))], ⟨(0, 0), 2⟩⟩
        ⟨(3, 0), 2⟩ =
      (⟨[("A", (1, 0)), ("B", (-1, 0)), ("C", (5, 0))], ⟨(3, 0), 2⟩⟩,
        [Event.exited "B" (-1, 0),
          Event.entered "C" (5, 0) (distW (5, 0) ((3, 0) : Loc))]) :=
  C6_update_criteria_diff_events distW (1, 0) (-1, 0) (5, 0)
    ⟨(0, 0), 2⟩ ⟨(3, 0), 2⟩
    (by decide) (by decide) (by decide) (by decide) (by decide) (by decide)

theorem runController_cancelled (dist : Loc → Loc → ℚ)
    (s : ControllerState) (hs : s.cancelled = true) (evs : List InEvent) :
    runController dist s evs = (s, []) := by
  induction evs with
  | nil => rfl
  | cons e rest ih => simp [runController, controllerStep, hs, ih]

/-- C8: once `cancel` has been processed on a query instance, no
`key_entered`, `key_moved` or `key_exited` event is ever emitted to that
instance's subscribers again — whatever stream of store notifications
(queued or in-flight data changes for previously subscribed ranges,
criteria updates, repeated cancels) is delivered afterwards, the emitted
event list is empty. -/
theorem C8_no_events_after_cancel (dist : Loc → Loc → ℚ)
    (s : ControllerState) (evs : List InEvent) :
    (runController dist (controllerStep dist s .cancelQuery).1 evs).2 =
      [] := by
  have hc : (controllerStep dist s .cancelQuery).1.cancelled = true := by
    unfold controllerStep
    by_cases h : s.cancelled = true <;> simp [h]
  rw [runController_cancelled dist _ hc]

end GeoFire
